import Mathlib

/-!
# Loan calculator (`src/main.cpp`): embedding and verified properties

The program computes with `double`.  The embedding reads every `double` as the
number it denotes and every arithmetic operation as the exact operation:

* the closed formulas and the Newton solver use `std::pow` and `std::log`, so
  they live over `ℝ`; an operation whose result is not a finite number
  (division by zero, logarithm of a non-positive number, a power that is not
  defined) yields `none`, and `none` propagates to the result, the way an
  infinity or a NaN propagates through the C++ expressions;
* the amortisation loop only adds, subtracts, multiplies and compares, so it is
  written once over any linearly ordered field and runs over `ℚ`;
* `format_number` is modelled on the rational value of its argument.

Rounding error of the floating-point operations is outside this model.
-/

namespace Emprunt

/-! ## 1. Financial functions (`main.cpp` lines 11-50) -/

/-- Value of `std::pow(x, y)` on finite arguments.  For a positive base it is
the real power; for base zero it is `0`, `1` or not finite according to the sign
of the exponent; for a negative base it is defined only at integer exponents.
`none` stands for a result that is not a finite number. -/
noncomputable def std_pow (x y : ℝ) : Option ℝ :=
  if 0 < x then some (x ^ y)
  else if x = 0 then
    (if 0 < y then some 0 else if y = 0 then some 1 else none)
  else if (⌊y⌋ : ℝ) = y then some (x ^ ⌊y⌋)
  else none

/-- Value of `std::log(x)`; `none` when the argument is not positive. -/
noncomputable def std_log (x : ℝ) : Option ℝ :=
  if 0 < x then some (Real.log x) else none

/-- Floating division `x / y`; `none` when the divisor is zero. -/
noncomputable def fdiv (x y : ℝ) : Option ℝ :=
  if y = 0 then none else some (x / y)

/-- `calculate_capital` (lines 11-15):
`repayment * (1 - pow(1 + monthly_rate, -nb_periods)) / monthly_rate`. -/
noncomputable def calculate_capital (repayment nb_periods annual_rate : ℝ) : Option ℝ := do
  let monthly_rate := annual_rate / 12
  let p ← std_pow (1 + monthly_rate) (-nb_periods)
  fdiv (repayment * (1 - p)) monthly_rate

/-- `calculate_repayment` (lines 17-21):
`capital * monthly_rate / (1 - pow(1 + monthly_rate, -nb_periods))`. -/
noncomputable def calculate_repayment (capital nb_periods annual_rate : ℝ) : Option ℝ := do
  let monthly_rate := annual_rate / 12
  let p ← std_pow (1 + monthly_rate) (-nb_periods)
  fdiv (capital * monthly_rate) (1 - p)

/-- `calculate_duration` (lines 23-27):
`-log(1 - capital * monthly_rate / repayment) / log(1 + monthly_rate)`. -/
noncomputable def calculate_duration (capital repayment annual_rate : ℝ) : Option ℝ := do
  let monthly_rate := annual_rate / 12
  let q ← fdiv (capital * monthly_rate) repayment
  let l1 ← std_log (1 - q)
  let l2 ← std_log (1 + monthly_rate)
  fdiv (-l1) l2

namespace find_interest_rate

/-- Local `f_val` of one iteration (line 36), as a function of `monthly_rate`. -/
noncomputable def f_val (capital repayment nb_periods monthly_rate : ℝ) : Option ℝ := do
  let p ← std_pow (1 + monthly_rate) (-nb_periods)
  let q ← fdiv (capital * monthly_rate) (1 - p)
  pure (repayment - q)

/-- Local `df_dmr` of one iteration (lines 38-40), as a function of
`monthly_rate`.  The three calls `pow(1 + monthly_rate, -nb_periods)` have the
same value `p`. -/
noncomputable def df_dmr (capital nb_periods monthly_rate : ℝ) : Option ℝ := do
  let p ← std_pow (1 + monthly_rate) (-nb_periods)
  let d := -capital * (1 - p) + capital * monthly_rate * nb_periods * p
  let sq ← std_pow (1 - p) 2
  fdiv d sq

/-- Local `f_prime_val` of one iteration (line 41). -/
noncomputable def f_prime_val (capital nb_periods monthly_rate : ℝ) : Option ℝ := do
  let d ← df_dmr capital nb_periods monthly_rate
  pure (d / 12)

/-- The `for` loop of lines 33-47; the first argument counts the iterations
that remain, the second is `annual_rate`.  When no iteration remains the loop
is left and line 49 returns `annual_rate`. -/
noncomputable def loop (capital repayment nb_periods tol : ℝ) : ℕ → ℝ → Option ℝ
  | 0, annual_rate => some annual_rate
  | k + 1, annual_rate => do
    let monthly_rate := annual_rate / 12
    let f_val ← f_val capital repayment nb_periods monthly_rate
    let f_prime_val ← f_prime_val capital nb_periods monthly_rate
    let step ← fdiv f_val f_prime_val
    let annual_rate_new := annual_rate - step
    if |annual_rate_new - annual_rate| < tol then pure annual_rate_new
    else loop capital repayment nb_periods tol k annual_rate_new

end find_interest_rate

/-- `find_interest_rate` (lines 29-50).  The defaults of the source are
`tol = 1e-6` and `max_iter = 100`; the initial guess is `0.05`. -/
noncomputable def find_interest_rate (capital repayment nb_periods tol : ℝ) (max_iter : ℤ) :
    Option ℝ :=
  find_interest_rate.loop capital repayment nb_periods tol max_iter.toNat (5 / 100)

/-! ## 2. `format_number` (lines 55-95) -/

/-- Nearest integer, ties to the even neighbour. -/
def round_half_even (x : ℚ) : ℤ :=
  let f := ⌊x⌋
  let d := x - f
  if d < 1 / 2 then f
  else if 1 / 2 < d then f + 1
  else if f % 2 = 0 then f else f + 1

/-- Text written by `oss << std::fixed << std::setprecision(2) << value` in the
classic locale, for a finite `value`: an optional minus sign, the decimal digits
of the integer part, a point and two fractional digits, the value being rounded
to the nearest hundredth (ties to even, as the C library does). -/
def ostream_fixed2 (value : ℚ) : List Char :=
  let cents := (round_half_even (|value| * 100)).toNat
  let sign := if value < 0 then ['-'] else []
  sign ++ Nat.toDigits 10 (cents / 100) ++
    ['.', Nat.digitChar (cents % 100 / 10), Nat.digitChar (cents % 10)]

/-- `std::string::find(c)`: index of the first occurrence, `none` for `npos`. -/
def string_find (s : List Char) (c : Char) : Option ℕ :=
  if s.indexOf c < s.length then some (s.indexOf c) else none

/-- `std::string::insert(i, c)` for `i` within the string. -/
def string_insert (s : List Char) (i : ℕ) (c : Char) : List Char :=
  s.take i ++ c :: s.drop i

namespace format_number

/-- The grouping loop of lines 83-91.  The first argument is the loop variable
`i` (the loop runs while `i > 0`), the second is `count`. -/
def loop : ℕ → ℕ → List Char → List Char
  | 0, _, integral => integral
  | i + 1, count, integral =>
    let count := count + 1
    let integral := if count % 3 = 0 then string_insert integral (i + 1) ' ' else integral
    loop i count integral

end format_number

/-- `format_number` (lines 55-95).  When `find` returns `npos` at line 78,
`substr(0, npos)` is the whole string and `substr(npos + 1)` is `substr(0)`. -/
def format_number (value : ℚ) : String :=
  let tmp := ostream_fixed2 value
  let tmp := match string_find tmp '.' with
    | none => tmp ++ [',', '0', '0']
    | some dot_pos => tmp.set dot_pos ','
  let (integral, decimals) := match string_find tmp ',' with
    | none => (tmp, tmp)
    | some dot_pos => (tmp.take dot_pos, tmp.drop (dot_pos + 1))
  let integral := format_number.loop (integral.length - 1) 0 integral
  String.mk (integral ++ [','] ++ decimals)

/-! ## 3. Amortisation schedule (`on_schedule_clicked`, lines 285-333) -/

/-- One line of the amortisation table, before formatting. -/
structure Row (K : Type) where
  period : ℤ
  interest : K
  principal : K
  remaining : K
  deriving DecidableEq

section schedule_definitions

variable {K : Type} [LinearOrderedField K]

/-- `static_cast<int>(x)`: truncation toward zero.  The C++ conversion is
defined when the truncated value fits in an `int`. -/
def static_cast_int [FloorRing K] (x : K) : ℤ := if 0 ≤ x then ⌊x⌋ else ⌈x⌉

namespace on_schedule_clicked

/-- The row computed by one pass through the loop body (lines 312-316). -/
def row_of (repay monthly_rate : K) (period : ℤ) (remaining : K) : Row K :=
  let interest := remaining * monthly_rate
  let principal := repay - interest
  let principal := if principal < 0 then 0 else principal
  let remaining := remaining - principal
  let remaining := if remaining < 0 then 0 else remaining
  ⟨period, interest, principal, remaining⟩

/-- The `for` loop of lines 310-329, with `n = static_cast<int>(dur)`.  The
first argument bounds the number of passes, the second is `period`, the third
is `remaining`; the result lists the rows in the order they are written. -/
def loop (repay monthly_rate : K) (n : ℤ) : ℕ → ℤ → K → List (Row K)
  | 0, _, _ => []
  | fuel + 1, period, remaining =>
    if period ≤ n then
      let interest := remaining * monthly_rate
      let principal := repay - interest
      let principal := if principal < 0 then 0 else principal
      let remaining := remaining - principal
      let remaining := if remaining < 0 then 0 else remaining
      ⟨period, interest, principal, remaining⟩ ::
        (if remaining ≤ 0 then [] else loop repay monthly_rate n fuel (period + 1) remaining)
    else []

/-- The text shown when the parameters are rejected (line 295). -/
def invalid_message : String :=
  "Paramètres invalides pour générer le tableau d\x27amortissement."

end on_schedule_clicked

/-- `on_schedule_clicked` (lines 285-333) on the four numbers read from the
entries: either the invalid-parameters message, or the rows of the table.  The
loop starts at `period = 1` and makes at most `static_cast<int>(dur)` passes. -/
def on_schedule_clicked [FloorRing K] (capital repay dur rate_input : K) :
    Except String (List (Row K)) :=
  let annual_rate := rate_input / 100
  if capital ≤ 0 ∨ repay ≤ 0 ∨ dur ≤ 0 ∨ annual_rate ≤ 0 then
    Except.error on_schedule_clicked.invalid_message
  else
    let monthly_rate := annual_rate / 12
    Except.ok (on_schedule_clicked.loop repay monthly_rate (static_cast_int dur)
      (static_cast_int dur).toNat 1 capital)

end schedule_definitions

/-! ## 4. Facts about the arithmetic primitives -/

theorem std_pow_of_pos {x : ℝ} (hx : 0 < x) (y : ℝ) : std_pow x y = some (x ^ y) := by
  simp [std_pow, hx]

theorem fdiv_of_ne {y : ℝ} (hy : y ≠ 0) (x : ℝ) : fdiv x y = some (x / y) := by
  simp [fdiv, hy]

theorem fdiv_zero (x : ℝ) : fdiv x 0 = none := by
  simp [fdiv]

theorem std_log_of_pos {x : ℝ} (hx : 0 < x) : std_log x = some (Real.log x) := by
  simp [std_log, hx]

theorem discount_lt_one {m n : ℝ} (hm : 0 < m) (hn : 0 < n) : (1 + m) ^ (-n) < 1 :=
  Real.rpow_lt_one_of_one_lt_of_neg (by linarith) (by linarith)

theorem rpow_neg_natCast {x : ℝ} (hx : 0 < x) (n : ℕ) : x ^ (-(n : ℝ)) = (x ^ n)⁻¹ := by
  rw [Real.rpow_neg hx.le, Real.rpow_natCast]

theorem rpow_neg_one_eq {x : ℝ} (hx : 0 < x) : x ^ (-(1 : ℝ)) = x⁻¹ := by
  rw [Real.rpow_neg hx.le, Real.rpow_one]

theorem rpow_neg_two_eq {x : ℝ} (hx : 0 < x) : x ^ (-(2 : ℝ)) = (x ^ 2)⁻¹ := by
  rw [Real.rpow_neg hx.le]
  norm_num

/-! ## 5. The closed formulas -/

theorem calculate_repayment_eq (capital nb_periods annual_rate : ℝ)
    (hn : 0 < nb_periods) (hr : 0 < annual_rate) :
    calculate_repayment capital nb_periods annual_rate
      = some (capital * (annual_rate / 12) / (1 - (1 + annual_rate / 12) ^ (-nb_periods))) := by
  have hm : 0 < annual_rate / 12 := by positivity
  have hq := discount_lt_one hm hn
  have h1 : (0:ℝ) < 1 + annual_rate / 12 := by linarith
  have h2 : 1 - (1 + annual_rate / 12) ^ (-nb_periods) ≠ 0 := by linarith
  simp [calculate_repayment, std_pow_of_pos h1, fdiv_of_ne h2]

theorem calculate_capital_eq (repayment nb_periods annual_rate : ℝ) (hr : 0 < annual_rate) :
    calculate_capital repayment nb_periods annual_rate
      = some (repayment * (1 - (1 + annual_rate / 12) ^ (-nb_periods)) / (annual_rate / 12)) := by
  have hm : 0 < annual_rate / 12 := by positivity
  have h1 : (0:ℝ) < 1 + annual_rate / 12 := by linarith
  simp [calculate_capital, std_pow_of_pos h1, fdiv_of_ne hm.ne']

/-- C1. For every capital > 0, periods > 0 and annual rate > 0,
`calculate_repayment` returns a finite repayment, and `calculate_capital` of
that repayment, the same periods and the same rate returns exactly the
original capital (formulas read over the real numbers). -/
theorem capital_of_repayment (capital nb_periods annual_rate : ℝ)
    (_hc : 0 < capital) (hn : 0 < nb_periods) (hr : 0 < annual_rate) :
    ∃ repayment, calculate_repayment capital nb_periods annual_rate = some repayment ∧
      calculate_capital repayment nb_periods annual_rate = some capital := by
  have hm : 0 < annual_rate / 12 := by positivity
  have hq := discount_lt_one hm hn
  have h2 : 1 - (1 + annual_rate / 12) ^ (-nb_periods) ≠ 0 := by linarith
  refine ⟨_, calculate_repayment_eq capital nb_periods annual_rate hn hr, ?_⟩
  rw [calculate_capital_eq _ _ _ hr]
  congr 1
  have hm0 : annual_rate / 12 ≠ 0 := hm.ne'
  generalize (1 + annual_rate / 12) ^ (-nb_periods) = q at h2
  generalize annual_rate / 12 = m at hm0
  field_simp

theorem capital_of_repayment_witness :
    ∃ repayment, calculate_repayment 10000 24 (12 / 100) = some repayment ∧
      calculate_capital repayment 24 (12 / 100) = some 10000 :=
  capital_of_repayment 10000 24 (12 / 100) (by norm_num) (by norm_num) (by norm_num)

/-- C8. For every repayment > 0, periods > 0 and annual rate > 0,
`calculate_capital` returns a finite capital, and `calculate_duration` of that
capital, the same repayment and the same rate returns exactly the original
number of periods (formulas read over the real numbers). -/
theorem duration_of_capital (repayment nb_periods annual_rate : ℝ)
    (hp : 0 < repayment) (hn : 0 < nb_periods) (hr : 0 < annual_rate) :
    ∃ capital, calculate_capital repayment nb_periods annual_rate = some capital ∧
      calculate_duration capital repayment annual_rate = some nb_periods := by
  have hm : 0 < annual_rate / 12 := by positivity
  have hq := discount_lt_one hm hn
  have h1 : (0:ℝ) < 1 + annual_rate / 12 := by linarith
  refine ⟨_, calculate_capital_eq repayment nb_periods annual_rate hr, ?_⟩
  have hq0 : 0 < (1 + annual_rate / 12) ^ (-nb_periods) := Real.rpow_pos_of_pos h1 _
  have hl : Real.log (1 + annual_rate / 12) ≠ 0 := by
    have := Real.log_pos (show (1:ℝ) < 1 + annual_rate / 12 by linarith)
    linarith
  have e : 1 - repayment * (1 - (1 + annual_rate / 12) ^ (-nb_periods)) / (annual_rate / 12)
      * (annual_rate / 12) / repayment = (1 + annual_rate / 12) ^ (-nb_periods) := by
    have hm0 : annual_rate / 12 ≠ 0 := hm.ne'
    generalize (1 + annual_rate / 12) ^ (-nb_periods) = q
    generalize annual_rate / 12 = m at hm0
    field_simp
  simp only [calculate_duration, fdiv_of_ne hp.ne', Option.bind_eq_bind, Option.some_bind, e,
    std_log_of_pos hq0, std_log_of_pos h1, fdiv_of_ne hl, Real.log_rpow h1]
  congr 1
  generalize Real.log (1 + annual_rate / 12) = l at hl
  field_simp

theorem duration_of_capital_witness :
    ∃ capital, calculate_capital 500 24 (12 / 100) = some capital ∧
      calculate_duration capital 500 (12 / 100) = some 24 :=
  duration_of_capital 500 24 (12 / 100) (by norm_num) (by norm_num) (by norm_num)

/-! ## 6. The Newton solver -/

/-- The derivative of `f(m) = repayment - capital * m / (1 - (1 + m)^(-n))`
with respect to `m`, at a positive `m`, for a positive `n`. -/
theorem hasDerivAt_f (capital repayment n m : ℝ) (hm : 0 < m) (hn : 0 < n) :
    HasDerivAt (fun x : ℝ => repayment - capital * x / (1 - (1 + x) ^ (-n)))
      (-(capital * ((1 - (1 + m) ^ (-n)) - m * (n * (1 + m) ^ (-n - 1)))
          / (1 - (1 + m) ^ (-n)) ^ 2)) m := by
  have h1 : (1:ℝ) + m ≠ 0 := by linarith
  have hq : 1 - (1 + m) ^ (-n) ≠ 0 := by
    have := discount_lt_one hm hn
    linarith
  have hp : HasDerivAt (fun x : ℝ => (1 + x) ^ (-n)) (1 * (-n) * (1 + m) ^ (-n - 1)) m :=
    ((hasDerivAt_id m).const_add 1).rpow_const (Or.inl h1)
  have hden : HasDerivAt (fun x : ℝ => 1 - (1 + x) ^ (-n)) (n * (1 + m) ^ (-n - 1)) m := by
    have := hp.const_sub 1
    convert this using 1
    ring
  have hnum : HasDerivAt (fun x : ℝ => capital * x) capital m := by
    simpa using (hasDerivAt_id m).const_mul capital
  have := (hnum.div hden hq).const_sub repayment
  convert this using 1
  ring

theorem df_dmr_two_periods :
    find_interest_rate.df_dmr 1 2 (1 / 100) = some (-10201 / 40401) := by
  have h1 : (0:ℝ) < 1 + 1 / 100 := by norm_num
  simp only [find_interest_rate.df_dmr, std_pow_of_pos h1, Option.bind_eq_bind, Option.some_bind,
    rpow_neg_two_eq h1]
  rw [std_pow_of_pos (by norm_num)]
  simp only [Option.some_bind]
  rw [fdiv_of_ne (by norm_num)]
  norm_num

/-- C10 (refuted on the code). At capital = 1, periods = 2 and monthly rate
m = 1/100 the loop body computes `df_dmr = -10201/40401` and
`f_prime_val = df_dmr / 12`, whereas the derivative with respect to `m` of
`f(m) = repayment - capital * m / (1 - (1 + m)^(-periods))` at that point is
`-30401/40401` for every repayment; so `df_dmr` is not that derivative. -/
theorem df_dmr_differs_from_derivative :
    find_interest_rate.df_dmr 1 2 (1 / 100) = some (-10201 / 40401) ∧
    find_interest_rate.f_prime_val 1 2 (1 / 100) = some (-10201 / 40401 / 12) ∧
    (∀ repayment : ℝ,
      HasDerivAt (fun m : ℝ => repayment - 1 * m / (1 - (1 + m) ^ (-(2:ℝ))))
        (-30401 / 40401) (1 / 100)) ∧
    (∀ repayment : ℝ,
      ¬ HasDerivAt (fun m : ℝ => repayment - 1 * m / (1 - (1 + m) ^ (-(2:ℝ))))
        (-10201 / 40401) (1 / 100)) := by
  have hd : ∀ repayment : ℝ,
      HasDerivAt (fun m : ℝ => repayment - 1 * m / (1 - (1 + m) ^ (-(2:ℝ))))
        (-30401 / 40401) (1 / 100) := by
    intro repayment
    have h := hasDerivAt_f 1 repayment 2 (1 / 100) (by norm_num) (by norm_num)
    have h1 : (0:ℝ) < 1 + 1 / 100 := by norm_num
    have e3 : (1 + 1 / 100 : ℝ) ^ (-(2:ℝ) - 1) = ((1 + 1 / 100) ^ 3)⁻¹ := by
      rw [show (-(2:ℝ) - 1) = -((3:ℕ) : ℝ) by norm_num, rpow_neg_natCast h1]
    rw [rpow_neg_two_eq h1, e3] at h
    convert h using 1
    norm_num
  refine ⟨df_dmr_two_periods, ?_, hd, ?_⟩
  · simp only [find_interest_rate.f_prime_val, df_dmr_two_periods, Option.bind_eq_bind,
      Option.some_bind, Option.pure_def]
  · intro repayment h
    have := h.unique (hd repayment)
    norm_num at this

theorem f_prime_val_one_period (capital m : ℝ) (hm : 0 < m) :
    find_interest_rate.f_prime_val capital 1 m = some 0 := by
  have h1 : (0:ℝ) < 1 + m := by linarith
  have hq : 1 - (1 + m)⁻¹ ≠ 0 := by
    have : (1 + m)⁻¹ < 1 := inv_lt_one_of_one_lt₀ (by linarith)
    linarith
  have hq2 : 0 < (1 - (1 + m)⁻¹) := by
    have : (1 + m)⁻¹ < 1 := inv_lt_one_of_one_lt₀ (by linarith)
    linarith
  simp only [find_interest_rate.f_prime_val, find_interest_rate.df_dmr, std_pow_of_pos h1,
    Option.bind_eq_bind, Option.some_bind, rpow_neg_one_eq h1, std_pow_of_pos hq2]
  rw [fdiv_of_ne (by positivity)]
  simp only [Option.some_bind, Option.pure_def, Option.some.injEq]
  have : -capital * (1 - (1 + m)⁻¹) + capital * m * 1 * (1 + m)⁻¹ = 0 := by
    field_simp
  rw [this]
  norm_num

theorem loop_division_by_zero (capital repayment nb_periods tol : ℝ) (k : ℕ)
    (annual_rate f : ℝ)
    (hf : find_interest_rate.f_val capital repayment nb_periods (annual_rate / 12) = some f)
    (hd : find_interest_rate.f_prime_val capital nb_periods (annual_rate / 12) = some 0) :
    find_interest_rate.loop capital repayment nb_periods tol (k + 1) annual_rate = none := by
  simp only [find_interest_rate.loop, hf, hd, Option.bind_eq_bind, Option.some_bind, fdiv_zero,
    Option.none_bind]

/-! ### The derivative slip, for every input -/

/-- For every capital other than 0, every positive number of periods and every
positive monthly rate, `df_dmr` is a finite number and is not the derivative of
`f` at that rate: its second term carries `(1 + m)^(-n)` where the derivative
carries `(1 + m)^(-n - 1)`. -/
theorem df_dmr_never_derivative (capital repayment n m : ℝ)
    (hc : capital ≠ 0) (hn : 0 < n) (hm : 0 < m) :
    ∃ d, find_interest_rate.df_dmr capital n m = some d ∧
      ¬ HasDerivAt (fun x : ℝ => repayment - capital * x / (1 - (1 + x) ^ (-n))) d m := by
  have h1 : (0:ℝ) < 1 + m := by linarith
  have hq := discount_lt_one hm hn
  have hq0 : 0 < 1 - (1 + m) ^ (-n) := by linarith
  have hsq : (1 - (1 + m) ^ (-n)) ^ (2:ℝ) = (1 - (1 + m) ^ (-n)) ^ 2 := by
    rw [show (2:ℝ) = ((2:ℕ):ℝ) by norm_num, Real.rpow_natCast]
  have hsq0 : (1 - (1 + m) ^ (-n)) ^ 2 ≠ 0 := by positivity
  refine ⟨(-capital * (1 - (1 + m) ^ (-n)) + capital * m * n * (1 + m) ^ (-n))
      / (1 - (1 + m) ^ (-n)) ^ 2, ?_, ?_⟩
  · simp only [find_interest_rate.df_dmr, std_pow_of_pos h1, std_pow_of_pos hq0,
      Option.bind_eq_bind, Option.some_bind, hsq, fdiv_of_ne hsq0]
  · intro h
    have e := h.unique (hasDerivAt_f capital repayment n m hm hn)
    have hsplit : (1 + m) ^ (-n) = (1 + m) ^ (-n - 1) * (1 + m) := by
      rw [show -n = (-n - 1) + 1 by ring, Real.rpow_add h1, Real.rpow_one]
      simp
    have hq1 : 0 < (1 + m) ^ (-n - 1) := Real.rpow_pos_of_pos h1 _
    rw [hsplit] at e hsq0
    generalize (1 + m) ^ (-n - 1) = q1 at e hq1 hsq0
    rw [← neg_div] at e
    have e2 := (div_left_inj' hsq0).1 e
    have e3 : capital * (m * m * n * q1) = 0 := by linear_combination e2
    have : m * m * n * q1 ≠ 0 := by positivity
    exact (mul_ne_zero hc this) e3

/-- With one period the solver never returns a finite number, whatever the
capital, the repayment, the tolerance and the (positive) iteration cap: the
first iteration divides by `f_prime_val = 0`. -/
theorem find_interest_rate_one_period_none (capital repayment tol : ℝ) (max_iter : ℤ)
    (hmax : 0 < max_iter) :
    find_interest_rate capital repayment 1 tol max_iter = none := by
  obtain ⟨k, hk⟩ : ∃ k, max_iter.toNat = k + 1 := ⟨max_iter.toNat - 1, by omega⟩
  have h1 : (0:ℝ) < 1 + 5 / 100 / 12 := by norm_num
  have hf : find_interest_rate.f_val capital repayment 1 (5 / 100 / 12)
      = some (repayment - capital * (5 / 100 / 12) / (1 - (1 + 5 / 100 / 12)⁻¹)) := by
    simp only [find_interest_rate.f_val, std_pow_of_pos h1, Option.bind_eq_bind,
      Option.some_bind, rpow_neg_one_eq h1]
    rw [fdiv_of_ne (by norm_num)]
    rfl
  rw [find_interest_rate, hk]
  exact loop_division_by_zero capital repayment 1 tol k (5 / 100) _ hf
    (f_prime_val_one_period capital _ (by norm_num))

/-- The numerator of `df_dmr` vanishes only for one period: for a positive
monthly rate and a positive number of periods other than 1,
`-(1 - q) + m * n * q` is not zero, where `q = (1 + m)^(-n)`. -/
theorem df_dmr_numerator_ne_zero (n m : ℝ) (hn : 0 < n) (hn1 : n ≠ 1) (hm : 0 < m) :
    -(1 - (1 + m) ^ (-n)) + m * n * (1 + m) ^ (-n) ≠ 0 := by
  have h1 : (0:ℝ) < 1 + m := by linarith
  have hpos : 0 < (1 + m) ^ n := Real.rpow_pos_of_pos h1 n
  have hq : (1 + m) ^ (-n) = ((1 + m) ^ n)⁻¹ := Real.rpow_neg h1.le n
  have hne : (1 + m) ^ n ≠ 1 + n * m := by
    rcases lt_or_gt_of_ne hn1 with h | h
    · exact (rpow_one_add_lt_one_add_mul_self (by linarith) hm.ne' hn h).ne
    · exact (one_add_mul_self_lt_rpow_one_add (by linarith) hm.ne' h).ne'
  intro h0
  rw [hq] at h0
  apply hne
  field_simp at h0
  linarith

/-- The part of C2 about the initial guess: when the rate is 0.05 and the
number of periods is not 1, the first iteration finds `f_val = 0` and returns
0.05. -/
theorem find_interest_rate_initial_guess (capital n tol : ℝ) (max_iter : ℤ) (hc : capital ≠ 0)
    (hn : 0 < n) (hn1 : n ≠ 1) (htol : 0 < tol) (hmax : 0 < max_iter) :
    ∃ repayment, calculate_repayment capital n (5 / 100) = some repayment ∧
      find_interest_rate capital repayment n tol max_iter = some (5 / 100) := by
  obtain ⟨k, hk⟩ : ∃ k, max_iter.toNat = k + 1 := ⟨max_iter.toNat - 1, by omega⟩
  have hm : (0:ℝ) < 5 / 100 / 12 := by norm_num
  have h1 : (0:ℝ) < 1 + 5 / 100 / 12 := by norm_num
  have hq := discount_lt_one hm hn
  have hq0 : 0 < 1 - (1 + 5 / 100 / 12 : ℝ) ^ (-n) := by linarith
  have hsq : (1 - (1 + 5 / 100 / 12 : ℝ) ^ (-n)) ^ (2:ℝ) = (1 - (1 + 5 / 100 / 12) ^ (-n)) ^ 2 := by
    rw [show (2:ℝ) = ((2:ℕ):ℝ) by norm_num, Real.rpow_natCast]
  have hsq0 : (1 - (1 + 5 / 100 / 12 : ℝ) ^ (-n)) ^ 2 ≠ 0 := by positivity
  refine ⟨_, calculate_repayment_eq capital n (5 / 100) hn (by norm_num), ?_⟩
  have hnum : -capital * (1 - (1 + 5 / 100 / 12) ^ (-n))
      + capital * (5 / 100 / 12) * n * (1 + 5 / 100 / 12) ^ (-n) ≠ 0 := by
    have := mul_ne_zero hc (df_dmr_numerator_ne_zero n (5 / 100 / 12) hn hn1 hm)
    intro h
    apply this
    linear_combination h
  have hG : (-capital * (1 - (1 + 5 / 100 / 12) ^ (-n))
      + capital * (5 / 100 / 12) * n * (1 + 5 / 100 / 12) ^ (-n))
        / (1 - (1 + 5 / 100 / 12) ^ (-n)) ^ 2 / 12 ≠ 0 :=
    div_ne_zero (div_ne_zero hnum hsq0) (by norm_num)
  rw [find_interest_rate, hk]
  simp only [find_interest_rate.loop, find_interest_rate.f_val, find_interest_rate.f_prime_val,
    find_interest_rate.df_dmr, std_pow_of_pos h1, std_pow_of_pos hq0, fdiv_of_ne hq0.ne', hsq,
    fdiv_of_ne hsq0, Option.bind_eq_bind, Option.some_bind, Option.pure_def, fdiv_of_ne hG,
    sub_self, zero_div, sub_zero, abs_zero, if_pos htol]

/-! ### The solver on a loan of three periods -/

theorem rpow_neg_three_eq {x : ℝ} (hx : 0 < x) : x ^ (-(3 : ℝ)) = (x ^ 3)⁻¹ := by
  rw [show (3:ℝ) = ((3:ℕ):ℝ) by norm_num, rpow_neg_natCast hx]

/-- Closed forms of `f_val` and `f_prime_val` for capital 1000, three periods and
`1 + monthly_rate = s > 1`. -/
theorem three_periods_values (repayment s : ℝ) (hs : 1 < s) :
    find_interest_rate.f_val 1000 repayment 3 (s - 1)
      = some (repayment - 1000 * s ^ 3 / (s ^ 2 + s + 1)) ∧
    find_interest_rate.f_prime_val 1000 3 (s - 1)
      = some (-(1000 * (s + 2) * s ^ 3 / (s ^ 2 + s + 1) ^ 2) / 12) := by
  have hs0 : (0:ℝ) < s := by linarith
  have hs3 : (1:ℝ) < s ^ 3 := one_lt_pow₀ hs (by norm_num)
  have hq : 0 < 1 - (s ^ 3)⁻¹ := by
    have : (s ^ 3)⁻¹ < 1 := inv_lt_one_of_one_lt₀ hs3
    linarith
  have hsq : (1 - (s ^ 3)⁻¹) ^ (2:ℝ) = (1 - (s ^ 3)⁻¹) ^ 2 := by
    rw [show (2:ℝ) = ((2:ℕ):ℝ) by norm_num, Real.rpow_natCast]
  have hsq0 : (1 - (s ^ 3)⁻¹) ^ 2 ≠ 0 := by positivity
  have e1 : (1:ℝ) + (s - 1) = s := by ring
  have hs1 : s - 1 ≠ 0 := by linarith
  have hquad : s ^ 2 + s + 1 ≠ 0 := by positivity
  have hs3' : s ^ 3 ≠ 0 := by positivity
  have hinv : 1 - (s ^ 3)⁻¹ = (s - 1) * (s ^ 2 + s + 1) / s ^ 3 := by
    field_simp
    ring
  have key1 : 1000 * (s - 1) / (1 - (s ^ 3)⁻¹) = 1000 * s ^ 3 / (s ^ 2 + s + 1) := by
    rw [hinv]
    field_simp
    ring
  have key2 : (-1000 * (1 - (s ^ 3)⁻¹) + 1000 * (s - 1) * 3 * (s ^ 3)⁻¹) / (1 - (s ^ 3)⁻¹) ^ 2
      = -(1000 * (s + 2) * s ^ 3 / (s ^ 2 + s + 1) ^ 2) := by
    rw [hinv]
    field_simp
    ring
  constructor
  · simp only [find_interest_rate.f_val, e1, std_pow_of_pos hs0, Option.bind_eq_bind,
      Option.some_bind, rpow_neg_three_eq hs0, fdiv_of_ne hq.ne', Option.pure_def, key1]
  · simp only [find_interest_rate.f_prime_val, find_interest_rate.df_dmr, e1,
      std_pow_of_pos hs0, std_pow_of_pos hq, Option.bind_eq_bind, Option.some_bind,
      rpow_neg_three_eq hs0, hsq, fdiv_of_ne hsq0, Option.pure_def, key2]

/-- One iteration on the loan of capital 1000 over three periods at the rate
0.1 (repayment 44289025/130683), from a rate `a` between 0.05 and 0.15: the new
rate lies on the other side of 0.1, at a distance between 0.98 and 1 times the
distance of `a`. -/
theorem three_periods_step (a : ℝ) (h1 : 5 / 100 ≤ a) (h2 : a ≤ 15 / 100) :
    ∃ F G μ : ℝ,
      find_interest_rate.f_val 1000 (44289025 / 130683) 3 (a / 12) = some F ∧
      find_interest_rate.f_prime_val 1000 3 (a / 12) = some G ∧ G ≠ 0 ∧
      a - F / G - 1 / 10 = -((a - 1 / 10) * μ) ∧ 98 / 100 ≤ μ ∧ μ ≤ 1 := by
  obtain ⟨s, hs⟩ : ∃ s : ℝ, s = 1 + a / 12 := ⟨_, rfl⟩
  have ha : a = 12 * (s - 1) := by rw [hs]; ring
  have hs1 : 241 / 240 ≤ s := by rw [hs]; linarith
  have hs2 : s ≤ 243 / 240 := by rw [hs]; linarith
  have hs0 : (0:ℝ) < s := by linarith
  have hquad : (0:ℝ) < s ^ 2 + s + 1 := by positivity
  have hden : (0:ℝ) < (43561 / 14400) * (s + 2) * s ^ 3 := by positivity
  obtain ⟨hF, hG⟩ := three_periods_values (44289025 / 130683) s (by linarith)
  have hm : a / 12 = s - 1 := by rw [ha]; ring
  refine ⟨_, _, ((43561 / 14400) * s ^ 2 + (29161 / 14400) * s + 14641 / 14400) * (s ^ 2 + s + 1)
    / ((43561 / 14400) * (s + 2) * s ^ 3) - 1, by rw [hm]; exact hF, by rw [hm]; exact hG,
    ?_, ?_, ?_, ?_⟩
  · have : 0 < 1000 * (s + 2) * s ^ 3 / (s ^ 2 + s + 1) ^ 2 := by positivity
    intro h
    linarith
  · rw [ha]
    field_simp
    ring
  · rw [le_sub_iff_add_le, le_div_iff₀ hden]
    nlinarith [mul_nonneg (sub_nonneg.2 hs1) (sub_nonneg.2 hs2), sq_nonneg s, sq_nonneg (s - 1),
      mul_nonneg (mul_nonneg (sub_nonneg.2 hs1) (sub_nonneg.2 hs2)) (sq_nonneg s),
      pow_nonneg (sub_nonneg.2 hs1) 3, pow_nonneg (sub_nonneg.2 hs1) 2,
      pow_nonneg (sub_nonneg.2 hs1) 4, pow_nonneg (sub_nonneg.2 hs2) 3,
      pow_nonneg (sub_nonneg.2 hs2) 2]
  · rw [sub_le_iff_le_add, div_le_iff₀ hden]
    nlinarith [mul_nonneg (sub_nonneg.2 hs1) (sub_nonneg.2 hs2), sq_nonneg s, sq_nonneg (s - 1),
      mul_nonneg (mul_nonneg (sub_nonneg.2 hs1) (sub_nonneg.2 hs2)) (sq_nonneg s),
      pow_nonneg (sub_nonneg.2 hs1) 3, pow_nonneg (sub_nonneg.2 hs1) 2,
      pow_nonneg (sub_nonneg.2 hs1) 4]

/-- On that loan the loop, started within 0.05 of the rate 0.1 and at least
`L` away from it, returns a rate that is still `L * 0.98^k` away after `k`
iterations: no step is shorter than the tolerance, so no iteration returns. -/
theorem three_periods_loop :
    ∀ (k : ℕ) (a L : ℝ), 1 / 1000000 ≤ L * (98 / 100) ^ k → L ≤ |a - 1 / 10| →
      |a - 1 / 10| ≤ 5 / 100 →
      ∃ a1, find_interest_rate.loop 1000 (44289025 / 130683) 3 (1 / 1000000) k a = some a1 ∧
        L * (98 / 100) ^ k ≤ |a1 - 1 / 10| := by
  intro k
  induction k with
  | zero =>
    intro a L _ hL _
    exact ⟨a, rfl, by simpa using hL⟩
  | succ k ih =>
    intro a L htol hL hD
    have hab := abs_le.1 hD
    obtain ⟨F, G, μ, hF, hG, hG0, hnew, hμ1, hμ2⟩ :=
      three_periods_step a (by linarith [hab.1]) (by linarith [hab.2])
    have hLpos : 0 < L := by
      by_contra hneg
      have : L * (98 / 100) ^ (k + 1) ≤ 0 :=
        mul_nonpos_of_nonpos_of_nonneg (not_lt.1 hneg) (by positivity)
      linarith
    have hpow1 : ((98:ℝ) / 100) ^ (k + 1) ≤ 1 := pow_le_one₀ (by norm_num) (by norm_num)
    have hLtol : 1 / 1000000 ≤ L := by nlinarith
    have habs : |a - F / G - 1 / 10| = |a - 1 / 10| * μ := by
      rw [hnew, abs_neg, abs_mul, abs_of_nonneg (by linarith : (0:ℝ) ≤ μ)]
    have hstep : ¬ |a - F / G - a| < 1 / 1000000 := by
      rw [not_lt]
      have e : a - F / G - a = -((a - 1 / 10) * (μ + 1)) := by linarith
      rw [e, abs_neg, abs_mul, abs_of_nonneg (by linarith : (0:ℝ) ≤ μ + 1)]
      nlinarith [abs_nonneg (a - 1 / 10)]
    obtain ⟨a1, ha1, hfar⟩ := ih (a - F / G) (L * (98 / 100))
      (by rw [pow_succ] at htol; linarith)
      (by rw [habs]; nlinarith [abs_nonneg (a - 1 / 10)])
      (by rw [habs]; nlinarith [abs_nonneg (a - 1 / 10)])
    refine ⟨a1, ?_, by rw [pow_succ]; linarith⟩
    simp only [find_interest_rate.loop, hF, hG, Option.bind_eq_bind, Option.some_bind,
      fdiv_of_ne hG0, if_neg hstep]
    exact ha1

/-- C2 (refuted on the code). Two loans at the rate r = 0.1, capital 1000,
solved with tolerance 1e-6 and 100 iterations.  Over three periods the
repayment is 44289025/130683 and `find_interest_rate` returns, after its 100
iterations, a rate that is more than 1e-3 away from r.  Over one period the
repayment is 3025/3 and the first iteration divides by `f_prime_val = 0`: the
result is not a finite number. -/
theorem find_interest_rate_misses_rate :
    calculate_repayment 1000 3 (1 / 10) = some (44289025 / 130683) ∧
    (∃ a, find_interest_rate 1000 (44289025 / 130683) 3 (1 / 1000000) 100 = some a ∧
      1 / 1000 < |a - 1 / 10|) ∧
    calculate_repayment 1000 1 (1 / 10) = some (3025 / 3) ∧
    find_interest_rate 1000 (3025 / 3) 1 (1 / 1000000) 100 = none := by
  refine ⟨?_, ?_, ?_, find_interest_rate_one_period_none 1000 _ _ 100 (by norm_num)⟩
  · rw [calculate_repayment_eq _ _ _ (by norm_num) (by norm_num),
      rpow_neg_three_eq (by norm_num)]
    norm_num
  · have h100 : (100 : ℤ).toNat = 100 := by decide
    obtain ⟨a, ha, hfar⟩ := three_periods_loop 100 (5 / 100) (5 / 100) (by norm_num)
      (by norm_num [abs_of_neg]) (by norm_num [abs_of_neg])
    refine ⟨a, by rw [find_interest_rate, h100]; exact ha, lt_of_lt_of_le (by norm_num) hfar⟩
  · rw [calculate_repayment_eq _ _ _ (by norm_num) (by norm_num),
      rpow_neg_one_eq (by norm_num)]
    norm_num

/-! ## 7. The amortisation schedule -/

section schedule_theorems

variable {K : Type} [LinearOrderedField K]

namespace on_schedule_clicked

theorem loop_succ (repay m : K) (n : ℤ) (fuel : ℕ) (period : ℤ) (remaining : K) :
    loop repay m n (fuel + 1) period remaining =
      if period ≤ n then
        row_of repay m period remaining ::
          (if (row_of repay m period remaining).remaining ≤ 0 then []
            else loop repay m n fuel (period + 1) (row_of repay m period remaining).remaining)
      else [] := rfl

/-- A property of rows that follows from an invariant of `remaining` holds for
every row the loop writes. -/
theorem loop_forall (repay m : K) (n : ℤ) (Inv : K → Prop) (P : Row K → Prop)
    (hP : ∀ period remaining, Inv remaining → P (row_of repay m period remaining))
    (hInv : ∀ period remaining, Inv remaining → Inv (row_of repay m period remaining).remaining) :
    ∀ (fuel : ℕ) (period : ℤ) (remaining : K), Inv remaining →
      ∀ row ∈ loop repay m n fuel period remaining, P row := by
  intro fuel
  induction fuel with
  | zero => intro period remaining _ row hrow; simp [loop] at hrow
  | succ fuel ih =>
    intro period remaining hrem row hrow
    rw [loop_succ] at hrow
    split_ifs at hrow with h1 h2
    · simp only [List.mem_singleton] at hrow
      subst hrow
      exact hP _ _ hrem
    · rcases List.mem_cons.1 hrow with rfl | hrow
      · exact hP _ _ hrem
      · exact ih _ _ (hInv period _ hrem) row hrow
    · simp at hrow

/-- The bound on the number of passes is never what stops the loop: with
`n + 1 - period` passes allowed or more, the rows are the same. -/
theorem loop_fuel (repay m : K) (n : ℤ) :
    ∀ (fuel : ℕ) (period : ℤ) (remaining : K), (n + 1 - period).toNat ≤ fuel →
      loop repay m n fuel period remaining =
        loop repay m n (n + 1 - period).toNat period remaining := by
  intro fuel
  induction fuel with
  | zero =>
    intro period remaining h
    have : (n + 1 - period).toNat = 0 := by omega
    rw [this]
  | succ fuel ih =>
    intro period remaining h
    by_cases hp : period ≤ n
    · obtain ⟨k, hk⟩ : ∃ k, (n + 1 - period).toNat = k + 1 := ⟨(n - period).toNat, by omega⟩
      have hk2 : (n + 1 - (period + 1)).toNat = k := by omega
      rw [hk, loop_succ, loop_succ, ih (period + 1) _ (by omega), hk2]
    · have : (n + 1 - period).toNat = 0 := by omega
      rw [this, loop_succ, if_neg hp]
      rfl

theorem row_of_nonneg (repay m : K) (hm : 0 ≤ m) (period : ℤ) (remaining : K)
    (hrem : 0 ≤ remaining) :
    0 ≤ (row_of repay m period remaining).interest ∧
    0 ≤ (row_of repay m period remaining).principal ∧
    0 ≤ (row_of repay m period remaining).remaining := by
  simp only [row_of]
  refine ⟨mul_nonneg hrem hm, ?_, ?_⟩
  · split_ifs with h
    · exact le_rfl
    · exact not_lt.1 h
  · split_ifs with h1 h2 h3
    · exact le_rfl
    · exact not_lt.1 h2
    · exact le_rfl
    · exact not_lt.1 h3

end on_schedule_clicked

theorem on_schedule_clicked_valid [FloorRing K] (capital repay dur rate_input : K)
    (hc : 0 < capital) (hp : 0 < repay) (hd : 0 < dur) (hr : 0 < rate_input / 100) :
    on_schedule_clicked capital repay dur rate_input =
      Except.ok (on_schedule_clicked.loop repay (rate_input / 100 / 12) (static_cast_int dur)
        (static_cast_int dur).toNat 1 capital) := by
  have hvalid : ¬ (capital ≤ 0 ∨ repay ≤ 0 ∨ dur ≤ 0 ∨ rate_input / 100 ≤ 0) := by
    simp [not_le, hc, hp, hd, hr]
  simp only [on_schedule_clicked, if_neg hvalid]

/-- C9. For every valid input (capital > 0, repayment > 0, periodCount > 0,
annualRate > 0) the schedule is generated and every row it contains has
principal >= 0, remaining >= 0 and interest >= 0, whatever the size of the
repayment. -/
theorem schedule_rows_nonneg [FloorRing K] (capital repay dur rate_input : K)
    (hc : 0 < capital) (hp : 0 < repay) (hd : 0 < dur) (hr : 0 < rate_input / 100) :
    ∃ rows, on_schedule_clicked capital repay dur rate_input = Except.ok rows ∧
      ∀ row ∈ rows, 0 ≤ row.principal ∧ 0 ≤ row.remaining ∧ 0 ≤ row.interest := by
  refine ⟨_, on_schedule_clicked_valid capital repay dur rate_input hc hp hd hr, ?_⟩
  intro row hrow
  have hm : (0:K) ≤ rate_input / 100 / 12 := by positivity
  have := on_schedule_clicked.loop_forall repay (rate_input / 100 / 12) (static_cast_int dur)
    (fun x => 0 ≤ x) (fun r => 0 ≤ r.interest ∧ 0 ≤ r.principal ∧ 0 ≤ r.remaining)
    (fun period remaining h => on_schedule_clicked.row_of_nonneg repay _ hm period remaining h)
    (fun period remaining h =>
      (on_schedule_clicked.row_of_nonneg repay _ hm period remaining h).2.2)
    _ 1 capital hc.le row hrow
  exact ⟨this.2.1, this.2.2, this.1⟩

theorem schedule_rows_nonneg_witness :
    ∃ rows, on_schedule_clicked (1200 : ℚ) 1 2 10 = Except.ok rows ∧
      ∀ row ∈ rows, 0 ≤ row.principal ∧ 0 ≤ row.remaining ∧ 0 ≤ row.interest :=
  schedule_rows_nonneg 1200 1 2 10 (by norm_num) (by norm_num) (by norm_num) (by norm_num)

/-- C7. Schedule generation answers with the invalid-parameters message (and
therefore with no row) if and only if capital <= 0 or repayment <= 0 or
periodCount <= 0 or annualRate <= 0, and the input (-1, 500, 24, 0.12) is
rejected in this way. -/
theorem schedule_invalid_iff [FloorRing K] :
    (∀ capital repay dur rate_input : K,
      on_schedule_clicked capital repay dur rate_input
          = Except.error on_schedule_clicked.invalid_message ↔
        (capital ≤ 0 ∨ repay ≤ 0 ∨ dur ≤ 0 ∨ rate_input / 100 ≤ 0)) ∧
    on_schedule_clicked (-1 : K) 500 24 12
      = Except.error on_schedule_clicked.invalid_message := by
  have key : ∀ capital repay dur rate_input : K,
      on_schedule_clicked capital repay dur rate_input
          = Except.error on_schedule_clicked.invalid_message ↔
        (capital ≤ 0 ∨ repay ≤ 0 ∨ dur ≤ 0 ∨ rate_input / 100 ≤ 0) := by
    intro capital repay dur rate_input
    unfold on_schedule_clicked
    constructor
    · intro h
      by_contra hv
      simp only [if_neg hv] at h
      cases h
    · intro hv
      simp only [if_pos hv]
  exact ⟨key, (key _ _ _ _).2 (Or.inl (by norm_num))⟩

/-- The schedule of the spec's example, computed over `ℚ`: capital 10000,
repayment 500, 24 periods, annual rate 12 % gives 23 rows, and the last one has
period 23 and remaining balance 0. -/
theorem schedule_example_rows :
    (match on_schedule_clicked (10000 : ℚ) 500 24 12 with
      | Except.ok rows => rows.getLast?.map fun r => (rows.length, r.period, r.remaining)
      | Except.error _ => none) = some (23, 23, 0) := by
  with_unfolding_all decide

end schedule_theorems

/-! ## 8. `format_number` -/

theorem digitChar_isDigit : ∀ k < 10, (Nat.digitChar k).isDigit = true := by decide

theorem toDigitsCore_forall (P : Char → Prop) (hP : ∀ k < 10, P (Nat.digitChar k)) :
    ∀ (fuel n : ℕ) (ds : List Char), (∀ c ∈ ds, P c) →
      ∀ c ∈ Nat.toDigitsCore 10 fuel n ds, P c := by
  intro fuel
  induction fuel with
  | zero => intro n ds h c hc; exact h c (by simpa [Nat.toDigitsCore] using hc)
  | succ fuel ih =>
    intro n ds h c hc
    have hcons : ∀ c ∈ Nat.digitChar (n % 10) :: ds, P c := by
      intro c hc
      rcases List.mem_cons.1 hc with rfl | hc
      · exact hP _ (Nat.mod_lt _ (by norm_num))
      · exact h c hc
    simp only [Nat.toDigitsCore] at hc
    split_ifs at hc with h0
    · exact hcons c hc
    · exact ih _ _ hcons c hc

theorem toDigitsCore_ne_nil (fuel n : ℕ) (ds : List Char) :
    Nat.toDigitsCore 10 (fuel + 1) n ds ≠ [] := by
  induction fuel generalizing n ds with
  | zero =>
    simp only [Nat.toDigitsCore]
    split_ifs <;> simp
  | succ fuel ih =>
    rw [Nat.toDigitsCore]
    split_ifs
    · simp
    · exact ih _ _

theorem toDigits_isDigit (n : ℕ) : ∀ c ∈ Nat.toDigits 10 n, c.isDigit = true :=
  toDigitsCore_forall (fun c => c.isDigit = true) digitChar_isDigit (n + 1) n []
    (by simp)

theorem toDigits_ne_nil (n : ℕ) : Nat.toDigits 10 n ≠ [] :=
  toDigitsCore_ne_nil n n []

theorem string_find_append (a b : List Char) (c : Char) (h : c ∉ a) :
    string_find (a ++ c :: b) c = some a.length := by
  have hi : (a ++ c :: b).indexOf c = a.length := by
    induction a with
    | nil => simp
    | cons x a ih =>
      have hx : x ≠ c := fun e => h (by simp [e])
      have ha : c ∉ a := fun e => h (List.mem_cons_of_mem _ e)
      simp [List.indexOf_cons, hx, ih ha]
  simp [string_find, hi]

theorem set_append_cons (a b : List Char) (c d : Char) :
    (a ++ c :: b).set a.length d = a ++ d :: b := by
  induction a with
  | nil => rfl
  | cons x a ih => simp [ih]

namespace format_number

theorem loop_append (t : List Char) :
    ∀ (i count : ℕ) (s : List Char), i ≤ s.length →
      loop i count (s ++ t) = loop i count s ++ t := by
  intro i
  induction i with
  | zero => intro count s _; rfl
  | succ i ih =>
    intro count s h
    simp only [loop]
    split_ifs with h3
    · have e : string_insert (s ++ t) (i + 1) ' ' = string_insert s (i + 1) ' ' ++ t := by
        simp [string_insert, List.take_append_of_le_length h, List.drop_append_of_le_length h]
      rw [e]
      apply ih
      simp [string_insert]
      omega
    · exact ih _ _ (by omega)

theorem loop_count_add_three :
    ∀ (i count : ℕ) (s : List Char), loop i (count + 3) s = loop i count s := by
  intro i
  induction i with
  | zero => intro count s; rfl
  | succ i ih =>
    intro count s
    simp only [loop]
    have e : (count + 3 + 1) % 3 = (count + 1) % 3 := by omega
    rw [e, show count + 3 + 1 = count + 1 + 3 by ring, ih]

theorem loop_short : ∀ (i count : ℕ) (s : List Char), i + count < 3 → loop i count s = s := by
  intro i
  induction i with
  | zero => intro count s _; rfl
  | succ i ih =>
    intro count s h
    simp only [loop]
    rw [if_neg (by omega)]
    exact ih _ _ (by omega)

theorem loop_three (i : ℕ) (s : List Char) (h : i + 1 ≤ s.length) :
    loop (i + 3) 0 s = loop i 0 (s.take (i + 1)) ++ ' ' :: s.drop (i + 1) := by
  have e : loop (i + 3) 0 s = loop i 3 (string_insert s (i + 1) ' ') := by
    simp [loop]
  rw [e, show (3:ℕ) = 0 + 3 by rfl, loop_count_add_three]
  simp only [string_insert]
  apply loop_append
  simp
  omega

end format_number

theorem intercalate_append_singleton (sep : List Char) (t : List Char) :
    ∀ (x : List Char) (xs : List (List Char)),
      List.intercalate sep (x :: xs ++ [t]) = List.intercalate sep (x :: xs) ++ sep ++ t := by
  intro x xs
  induction xs generalizing x with
  | nil => simp [List.intercalate]
  | cons y ys ih =>
    have h := ih y
    simp only [List.intercalate, List.cons_append, List.intersperse_cons_cons, List.flatten_cons,
      List.append_assoc] at h ⊢
    rw [h]

namespace format_number

/-- The grouping loop, run on a non-empty string `d`, returns `d` cut from the
right into groups of three characters (the leading group has one to three)
joined by single spaces. -/
theorem loop_groups :
    ∀ (L : ℕ) (d : List Char), d.length = L → 1 ≤ L →
      ∃ (g : List Char) (gs : List (List Char)),
        loop (L - 1) 0 d = List.intercalate [' '] (g :: gs) ∧ (g :: gs).flatten = d ∧
        1 ≤ g.length ∧ g.length ≤ 3 ∧ ∀ h ∈ gs, h.length = 3 := by
  intro L
  induction L using Nat.strong_induction_on with
  | _ L ih =>
    intro d hd hL
    by_cases h3 : L ≤ 3
    · refine ⟨d, [], ?_, by simp, by omega, by omega, by simp⟩
      rw [loop_short _ _ _ (by omega)]
      simp [List.intercalate]
    · obtain ⟨i, rfl⟩ : ∃ i, L = i + 4 := ⟨L - 4, by omega⟩
      obtain ⟨g, gs, hloop, hjoin, hg1, hg3, hgs⟩ :=
        ih (i + 1) (by omega) (d.take (i + 1)) (by simp; omega) (by omega)
      refine ⟨g, gs ++ [d.drop (i + 1)], ?_, ?_, hg1, hg3, ?_⟩
      · rw [show i + 4 - 1 = i + 3 by omega, loop_three i d (by omega)]
        rw [show i + 1 - 1 = i by omega] at hloop
        rw [hloop, ← List.cons_append, intercalate_append_singleton]
        simp
      · rw [← List.cons_append, List.flatten_append, hjoin]
        simp
      · intro h hh
        rcases List.mem_append.1 hh with hh | hh
        · exact hgs h hh
        · simp only [List.mem_singleton] at hh
          subst hh
          simp
          omega

end format_number

theorem round_half_even_near (x : ℚ) : |x - round_half_even x| ≤ 1 / 2 := by
  have h1 := Int.floor_le x
  have h2 := Int.lt_floor_add_one x
  unfold round_half_even
  simp only
  split_ifs with ha hb hc
  · rw [abs_le]; constructor <;> linarith
  · rw [abs_le]; push_cast; constructor <;> linarith
  · rw [abs_le]; constructor <;> linarith
  · rw [abs_le]; push_cast; constructor <;> linarith

theorem round_half_even_nonneg (x : ℚ) (hx : 0 ≤ x) : 0 ≤ round_half_even x := by
  have h0 : 0 ≤ ⌊x⌋ := Int.floor_nonneg.2 hx
  unfold round_half_even
  simp only
  split_ifs <;> omega

/-- The text of `format_number` for a value that is not negative, in terms of
the rounded number of hundredths. -/
theorem format_number_nonneg (value : ℚ) (hv : 0 ≤ value) :
    (format_number value).data =
      format_number.loop ((Nat.toDigits 10
          ((round_half_even (|value| * 100)).toNat / 100)).length - 1) 0
        (Nat.toDigits 10 ((round_half_even (|value| * 100)).toNat / 100)) ++
      [',', Nat.digitChar ((round_half_even (|value| * 100)).toNat % 100 / 10),
        Nat.digitChar ((round_half_even (|value| * 100)).toNat % 10)] := by
  have hdot : '.' ∉ Nat.toDigits 10 ((round_half_even (|value| * 100)).toNat / 100) :=
    fun h => by simpa using toDigits_isDigit _ _ h
  have hcomma : ',' ∉ Nat.toDigits 10 ((round_half_even (|value| * 100)).toNat / 100) :=
    fun h => by simpa using toDigits_isDigit _ _ h
  simp only [format_number, ostream_fixed2, if_neg (not_lt.2 hv), List.nil_append,
    string_find_append _ _ _ hdot, set_append_cons, string_find_append _ _ _ hcomma,
    List.take_left, List.drop_append_of_le_length, List.append_assoc]
  simp

/-- C5. For every amount that is not negative, `format_number` returns the
amount rounded to the nearest hundredth (`cents` hundredths, at most one half
away from 100 * amount), written as: the decimal digits of the integer part
`cents / 100` cut from the right into groups of three digits (the leading group
has one to three digits) joined by single spaces, then a comma, then the two
fractional digits.  Joining the groups gives back the ungrouped digits, and
every character of a group is a digit, so a group contains no space. -/
theorem format_number_layout (value : ℚ) (hv : 0 ≤ value) :
    ∃ (cents : ℕ) (g : List Char) (gs : List (List Char)),
      (cents : ℤ) = round_half_even (value * 100) ∧
      |value * 100 - cents| ≤ 1 / 2 ∧
      (format_number value).data = List.intercalate [' '] (g :: gs) ++
        [',', Nat.digitChar (cents % 100 / 10), Nat.digitChar (cents % 10)] ∧
      (g :: gs).flatten = Nat.toDigits 10 (cents / 100) ∧
      (∀ c ∈ (g :: gs).flatten, c.isDigit = true) ∧
      1 ≤ g.length ∧ g.length ≤ 3 ∧ ∀ h ∈ gs, h.length = 3 := by
  have habs : |value| = value := abs_of_nonneg hv
  have hnn : 0 ≤ round_half_even (value * 100) :=
    round_half_even_nonneg _ (by positivity)
  have hcast : ((round_half_even (value * 100)).toNat : ℤ) = round_half_even (value * 100) :=
    Int.toNat_of_nonneg hnn
  obtain ⟨g, gs, hloop, hjoin, hg1, hg3, hgs⟩ :=
    format_number.loop_groups _
      (Nat.toDigits 10 ((round_half_even (value * 100)).toNat / 100)) rfl
      (List.length_pos.2 (toDigits_ne_nil _))
  refine ⟨(round_half_even (value * 100)).toNat, g, gs, hcast, ?_, ?_, hjoin, ?_, hg1, hg3, hgs⟩
  · have h := round_half_even_near (value * 100)
    rw [← hcast] at h
    exact_mod_cast h
  · rw [format_number_nonneg value hv, habs, hloop]
  · rw [hjoin]
    exact toDigits_isDigit _

theorem format_number_layout_witness :
    format_number (2469 / 2) = "1 234,50" ∧
    format_number (999999 / 1000) = "1 000,00" ∧
    format_number 0 = "0,00" ∧
    format_number 1000000 = "1 000 000,00" ∧
    ∃ (cents : ℕ) (g : List Char) (gs : List (List Char)),
      (cents : ℤ) = round_half_even ((2469 / 2 : ℚ) * 100) ∧
      |(2469 / 2 : ℚ) * 100 - cents| ≤ 1 / 2 ∧
      (format_number (2469 / 2)).data = List.intercalate [' '] (g :: gs) ++
        [',', Nat.digitChar (cents % 100 / 10), Nat.digitChar (cents % 10)] ∧
      (g :: gs).flatten = Nat.toDigits 10 (cents / 100) ∧
      (∀ c ∈ (g :: gs).flatten, c.isDigit = true) ∧
      1 ≤ g.length ∧ g.length ≤ 3 ∧ ∀ h ∈ gs, h.length = 3 :=
  ⟨by with_unfolding_all decide, by with_unfolding_all decide, by with_unfolding_all decide,
    by with_unfolding_all decide, format_number_layout (2469 / 2) (by norm_num)⟩

namespace format_number

/-- The grouping loop on a string with one more leading character: the same
insertions, then the last pass of the loop, which treats the leading character
like a digit. -/
theorem loop_cons (c : Char) :
    ∀ (i count : ℕ) (s : List Char),
      loop (i + 1) count (c :: s) =
        c :: (if (count + i + 1) % 3 = 0 then ' ' :: loop i count s else loop i count s) := by
  intro i
  induction i with
  | zero =>
    intro count s
    simp only [loop, string_insert]
    split_ifs <;> simp
  | succ i ih =>
    intro count s
    have e : loop (i + 1 + 1) count (c :: s) =
        loop (i + 1) (count + 1)
          (c :: (if (count + 1) % 3 = 0 then string_insert s (i + 1) ' ' else s)) := by
      simp only [loop, string_insert]
      split_ifs <;> simp
    rw [e, ih, show count + 1 + i + 1 = count + (i + 1) + 1 by ring]
    simp only [loop]

end format_number

/-- The text of `format_number` once the text of the stream is known to be
`a ++ "." ++ b` with neither a point nor a comma in `a`. -/
theorem format_number_of_fixed (value : ℚ) (a b : List Char)
    (h : ostream_fixed2 value = a ++ '.' :: b) (hdot : '.' ∉ a) (hcomma : ',' ∉ a) :
    (format_number value).data = format_number.loop (a.length - 1) 0 a ++ ',' :: b := by
  simp only [format_number, h, string_find_append _ _ _ hdot, set_append_cons,
    string_find_append _ _ _ hcomma, List.take_left, List.append_assoc]
  simp

theorem format_number_neg (x : ℚ) (hx : 0 < x) :
    (format_number (-x)).data =
      '-' :: ((if (Nat.toDigits 10 ((round_half_even (x * 100)).toNat / 100)).length % 3 = 0
        then [' '] else []) ++ (format_number x).data) := by
  have hx0 : |x| = x := abs_of_pos hx
  have habs : |(-x)| = x := by rw [abs_neg, hx0]
  have hd : ∀ c ∈ Nat.toDigits 10 ((round_half_even (x * 100)).toNat / 100),
      c.isDigit = true := toDigits_isDigit _
  have hpos : ostream_fixed2 x = Nat.toDigits 10 ((round_half_even (x * 100)).toNat / 100) ++
      '.' :: [Nat.digitChar ((round_half_even (x * 100)).toNat % 100 / 10),
        Nat.digitChar ((round_half_even (x * 100)).toNat % 10)] := by
    simp [ostream_fixed2, hx0, not_lt.2 hx.le]
  have hneg : ostream_fixed2 (-x) =
      ('-' :: Nat.toDigits 10 ((round_half_even (x * 100)).toNat / 100)) ++
      '.' :: [Nat.digitChar ((round_half_even (x * 100)).toNat % 100 / 10),
        Nat.digitChar ((round_half_even (x * 100)).toNat % 10)] := by
    simp [ostream_fixed2, habs, hx]
  obtain ⟨L, hL⟩ : ∃ L, (Nat.toDigits 10 ((round_half_even (x * 100)).toNat / 100)).length
      = L + 1 := ⟨_, (Nat.succ_pred_eq_of_pos (List.length_pos.2 (toDigits_ne_nil _))).symm⟩
  rw [format_number_of_fixed _ _ _ hpos (fun h => by simpa using hd _ h)
      (fun h => by simpa using hd _ h),
    format_number_of_fixed _ _ _ hneg
      (fun h => by
        rcases List.mem_cons.1 h with h | h
        · exact absurd h (by decide)
        · simpa using hd _ h)
      (fun h => by
        rcases List.mem_cons.1 h with h | h
        · exact absurd h (by decide)
        · simpa using hd _ h)]
  simp only [List.length_cons, hL, Nat.add_sub_cancel, format_number.loop_cons, Nat.zero_add]
  split_ifs <;> simp

end Emprunt
